import Mathlib

/-!
Verification of the scratchpads filename engine.

Shallow embedding of the core algorithms of the repository: the filename
sanitizer, the suggestion provider chain, the suggestion backends
(as pure functions of their environment outcomes), the filename allocator
with gap-filling numbering, the extension extractor (Node `path.extname`,
posix rules), and the auto-rename orchestrator gates.  Strings are
modelled as `List Char`; JavaScript regular-expression steps are
translated to explicit list scans.
-/

namespace Scratchpads

/-! ### Character classes (JS regex classes, by code point) -/

/-- `[a-z]` -/
def isLowerChar (c : Char) : Bool := decide (97 ≤ c.toNat) && decide (c.toNat ≤ 122)

/-- `[A-Z]` -/
def isUpperChar (c : Char) : Bool := decide (65 ≤ c.toNat) && decide (c.toNat ≤ 90)

/-- `[0-9]` (JS `\d`) -/
def isDigitChar (c : Char) : Bool := decide (48 ≤ c.toNat) && decide (c.toNat ≤ 57)

/-- `[a-z0-9]` with the `i` flag, i.e. `[a-zA-Z0-9]` -/
def isAlnumCI (c : Char) : Bool := isLowerChar c || isUpperChar c || isDigitChar c

/-- JS whitespace (`\s`, and the set trimmed by `String.prototype.trim`):
space, tab, LF, VT, FF, CR, NBSP, Ogham space, the U+2000 block,
line/paragraph separators, NNBSP, MMSP, ideographic space, BOM. -/
def isJSSpace (c : Char) : Bool :=
  decide (c.toNat = 32) || decide (c.toNat = 9) || decide (c.toNat = 10) ||
  decide (c.toNat = 11) || decide (c.toNat = 12) || decide (c.toNat = 13) ||
  decide (c.toNat = 0xa0) || decide (c.toNat = 0x1680) ||
  (decide (0x2000 ≤ c.toNat) && decide (c.toNat ≤ 0x200a)) ||
  decide (c.toNat = 0x2028) || decide (c.toNat = 0x2029) ||
  decide (c.toNat = 0x202f) || decide (c.toNat = 0x205f) ||
  decide (c.toNat = 0x3000) || decide (c.toNat = 0xfeff)

/-- The class `[\s_]` of the collapse step. -/
def isSpaceUnderscore (c : Char) : Bool := isJSSpace c || decide (c.toNat = 95)

/-- The class kept (not replaced by a space) by `[^a-z0-9\-\s_]`. -/
def isKeptChar (c : Char) : Bool :=
  isLowerChar c || isDigitChar c || decide (c = '-') || isJSSpace c || decide (c.toNat = 95)

/-- Characters of a sanitized stem: `[a-z0-9]` or a hyphen. -/
def isStemChar (c : Char) : Bool := isLowerChar c || isDigitChar c || decide (c = '-')

/-- The class of the hyphen-run collapse step. -/
def isHyphen (c : Char) : Bool := decide (c = '-')

/-- ASCII lowercasing, the only case mapping the sanitizer alphabet needs. -/
def toLowerChar (c : Char) : Char :=
  if isUpperChar c then Char.ofNat (c.toNat + 32) else c

/-! ### Sanitizer (src/src/ai-filename.ts, `sanitizeFilename`) -/

/-- `input.split('\n')[0] || ''` -/
def firstLine (l : List Char) : List Char := l.takeWhile (fun c => !decide (c = '\n'))

/-- `String.prototype.trim` -/
def trimJS (l : List Char) : List Char :=
  ((l.dropWhile isJSSpace).reverse.dropWhile isJSSpace).reverse

/-- `.replace(/[`"']/g, '')` — drop backticks and both quote characters. -/
def removeQuotes (l : List Char) : List Char :=
  l.filter (fun c => !(decide (c.toNat = 96) || decide (c.toNat = 34) || decide (c.toNat = 39)))

/-- `.replace(/\.[a-z0-9]+$/i, '')` — drop one trailing dot-plus-alphanumerics
extension, when present. -/
def stripTrailingExtension (l : List Char) : List Char :=
  if l.reverse.takeWhile isAlnumCI = [] then l
  else
    match l.reverse.drop (l.reverse.takeWhile isAlnumCI).length with
    | '.' :: rest => rest.reverse
    | _ => l

/-- `.replace(/[^a-z0-9\-\s_]/g, ' ')` -/
def replaceDisallowed (l : List Char) : List Char :=
  l.map (fun c => if isKeptChar c then c else ' ')

/-- One maximal run of characters satisfying `p` becomes the single
character `r`; used for the whitespace-and-underscore collapse step and for
the hyphen-run collapse step of the sanitizer. -/
def collapseRuns (p : Char → Bool) (r : Char) : List Char → List Char
  | [] => []
  | [c] => if p c then [r] else [c]
  | c :: c2 :: cs =>
    if p c && p c2 then collapseRuns p r (c2 :: cs)
    else (if p c then r else c) :: collapseRuns p r (c2 :: cs)

/-- Remove a single leading hyphen when present. -/
def stripLeadHyphen : List Char → List Char
  | [] => []
  | c :: cs => if c = '-' then cs else c :: cs

/-- Remove a single trailing hyphen when present. -/
def stripTrailHyphen (l : List Char) : List Char :=
  (stripLeadHyphen l.reverse).reverse

/-- `.replace(/^-|-$/g, '')` — one leading and one trailing hyphen removed,
matches found on the incoming string, non-overlapping. -/
def stripEdgeHyphens (l : List Char) : List Char :=
  stripTrailHyphen (stripLeadHyphen l)

/-- The `cleaned` value of `sanitizeFilename`: first line, trim, lowercase,
strip quotes, strip one trailing extension, space out disallowed characters,
collapse whitespace/underscore runs to hyphens, collapse hyphen runs, strip
edge hyphens, truncate to 60, strip edge hyphens again. -/
def sanitizeCore (input : List Char) : List Char :=
  stripEdgeHyphens
    ((stripEdgeHyphens
      (collapseRuns isHyphen '-'
        (collapseRuns isSpaceUnderscore '-'
          (replaceDisallowed
            (stripTrailingExtension
              (removeQuotes
                ((trimJS (firstLine input)).map toLowerChar))))))).take 60)

/-- `sanitizeFilename` of src/src/ai-filename.ts: an empty cleaned value is
falsy and becomes `none`. -/
def sanitizeFilename (input : List Char) : Option (List Char) :=
  if sanitizeCore input = [] then none else some (sanitizeCore input)

/-! ### The shape of a valid stem: `^[a-z0-9]+(-[a-z0-9]+)*$` -/

/-- Adjacent-character condition of a valid stem: never two hyphens in a row. -/
def NoHH (a b : Char) : Prop := ¬(a = '-' ∧ b = '-')

instance : DecidableRel NoHH := fun a b => by unfold NoHH; infer_instance

/-- A string matches `^[a-z0-9]+(-[a-z0-9]+)*$` iff it is non-empty, drawn
from `[a-z0-9-]`, has no hyphen at either end and no two adjacent hyphens. -/
def GoodStem (l : List Char) : Prop :=
  l ≠ [] ∧ (∀ c ∈ l, isStemChar c = true) ∧
    l.head? ≠ some '-' ∧ l.getLast? ≠ some '-' ∧ List.Chain' NoHH l

instance : DecidablePred GoodStem := fun l => by unfold GoodStem; infer_instance

/-! ### Filename allocator (part_000, `ScratchpadsManager`) -/

/-- Decimal value of a digit list, as `parseInt(_, 10)` computes it. -/
def digitsToNat (ds : List Char) : Nat :=
  ds.foldl (fun acc c => 10 * acc + (c.toNat - 48)) 0

/-- Rendering of a number into a filename, as JS string interpolation does. -/
def natChars (n : Nat) : List Char := (Nat.repr n).toList

/-- Match of `^escaped(base)(\d+)\.(.+)$` against one filename, returning the
parsed numeric suffix.  `.` does not match a newline and `$` anchors at the
very end, so the extension part is any non-empty newline-free string. -/
def parseNumberedSuffix (base file : List Char) : Option Nat :=
  if file.take base.length = base then
    let rest := file.drop base.length
    let ds := rest.takeWhile isDigitChar
    if ds = [] then none
    else
      match rest.drop ds.length with
      | '.' :: ext =>
        if ext = [] then none
        else if ext.contains '\n' then none
        else some (digitsToNat ds)
      | _ => none
  else none

/-- Match of `^escaped(base)\.(.+)$` against one filename. -/
def matchesBasePattern (base file : List Char) : Bool :=
  decide (file.take base.length = base) &&
    match file.drop base.length with
    | '.' :: ext => !decide (ext = []) && !ext.contains '\n'
    | _ => false

/-- `baseFilenameExists`: some existing file is `base.<anyExtension>`. -/
def baseFilenameExists (base : List Char) (files : List (List Char)) : Bool :=
  files.any (matchesBasePattern base)

/-- The set of numeric suffixes in use for `base` (a JS `Set<number>`,
modelled as a deduplicated list). -/
def usedNumbers (base : List Char) (files : List (List Char)) : List Nat :=
  (files.filterMap (parseNumberedSuffix base)).dedup

/-- Upper bound of a list of naturals. -/
def maxUsed (s : List Nat) : Nat := s.foldr max 0

/-- The probe loop `while (usedNumbers.has(candidate)) candidate++`, with
explicit fuel; any fuel that reaches past a gap yields the loop result. -/
def findFrom (s : List Nat) : Nat → Nat → Nat
  | 0, c => c
  | fuel + 1, c => if c ∈ s then findFrom s fuel (c + 1) else c

/-- `findNextAvailableNumber`: lowest number from 1 upward that is not a
used numeric suffix; 1 when no numbered file exists. -/
def findNextAvailableNumber (base : List Char) (files : List (List Char)) : Nat :=
  let used := usedNumbers base files
  if used = [] then 1 else findFrom used (maxUsed used + 1) 1

/-- The allocation step of `createScratchpad`: unsuffixed name when the base
is free, otherwise base + next available number + extension. -/
def createScratchpadFilename (base ext : List Char) (files : List (List Char)) : List Char :=
  if baseFilenameExists base files then
    base ++ natChars (findNextAvailableNumber base files) ++ ext
  else
    base ++ ext

/-! ### Suggestion provider chain (src/src/ai-filename.ts, `suggestFilename`) -/

inductive RenameProvider where
  | auto
  | vscode
  | openai
deriving DecidableEq

/-- Result of one chain run plus which backends were invoked. -/
structure ChainOutcome where
  result : Option (List Char)
  localCalled : Bool
  remoteCalled : Bool
deriving DecidableEq

/-- `suggestFilename`, with the two backend calls abstracted by their
results: first the local backend when the provider is `vscode` or `auto`,
returning its suggestion when truthy; then the remote backend when the
provider is `openai` or `auto`; otherwise no suggestion. -/
def suggestFilename (provider : RenameProvider)
    (localResult remoteResult : Option (List Char)) : ChainOutcome :=
  if provider = RenameProvider.vscode ∨ provider = RenameProvider.auto then
    match localResult with
    | some s => ⟨some s, true, false⟩
    | none =>
      if provider = RenameProvider.openai ∨ provider = RenameProvider.auto then
        ⟨remoteResult, true, true⟩
      else ⟨none, true, false⟩
  else
    if provider = RenameProvider.openai ∨ provider = RenameProvider.auto then
      ⟨remoteResult, false, true⟩
    else ⟨none, false, false⟩

/-! ### Suggestion backends as functions of their environment -/

/-- Possible worlds for one local-model attempt: the `vscode.lm` capability
is missing, no selector resolves a model, something throws, or the model
streams an accumulated output string. -/
inductive LMOutcome where
  | apiUnavailable
  | noModel
  | threw
  | responded (output : List Char)

/-- `suggestWithVSCodeLM`: every failure world is caught and converted to
`none`; a streamed response is sanitized. -/
def suggestWithVSCodeLM : LMOutcome → Option (List Char)
  | LMOutcome.apiUnavailable => none
  | LMOutcome.noModel => none
  | LMOutcome.threw => none
  | LMOutcome.responded out => sanitizeFilename out

/-- Possible worlds for one remote POST: the promise rejects (network error,
timeout destruction, non-2xx status), the body fails `JSON.parse`, the parsed
body lacks `choices[0].message.content`, or a content string is present. -/
inductive RemoteWorld where
  | rejected
  | resolvedBadJSON
  | resolvedMissingContent
  | resolvedContent (text : List Char)

/-- `suggestWithOpenAI` as a function of the configured key and the network
world; the boolean records whether a network request was issued.  An empty
key returns immediately; every rejection or malformed response is caught and
yields `none`; an empty content string is falsy and yields `none`. -/
def suggestWithOpenAI (apiKey : List Char) (world : RemoteWorld) :
    Option (List Char) × Bool :=
  if apiKey = [] then (none, false)
  else
    match world with
    | RemoteWorld.rejected => (none, true)
    | RemoteWorld.resolvedBadJSON => (none, true)
    | RemoteWorld.resolvedMissingContent => (none, true)
    | RemoteWorld.resolvedContent text =>
      if text = [] then (none, true) else (sanitizeFilename text, true)

/-- The request timeout of `postJSON` (src/src/ai-filename.ts). -/
def timeoutMs : Nat := 10000

/-- Modelled from the spec: the Node `https` request plumbing is not part of
this repository.  Per the spec, the 10 second timer aborts the connection
and the destroyed request surfaces as an error event, rejecting the promise;
so a response that would only arrive after more than `timeoutMs`
milliseconds of waiting degenerates to the rejected world. -/
def postJSONWithDelay (delayMs : Nat) (world : RemoteWorld) : RemoteWorld :=
  if timeoutMs < delayMs then RemoteWorld.rejected else world

/-! ### Extension extraction (Node `path.extname`, posix) -/

/-- Last path component, after stripping trailing separators. -/
def posixBasename (p : List Char) : List Char :=
  let noTrail := (p.reverse.dropWhile (fun c => decide (c = '/'))).reverse
  (noTrail.reverse.takeWhile (fun c => !decide (c = '/'))).reverse

/-- Node posix `path.extname`: the suffix of the basename from its last dot,
empty when the basename has no dot, when the only dot is its first
character, or when the basename is exactly `..`. -/
def extname (p : List Char) : List Char :=
  let b := posixBasename p
  let suffixRev := b.reverse.takeWhile (fun c => !decide (c = '.'))
  match b.reverse.drop suffixRev.length with
  | [] => []
  | c :: preRev =>
    if preRev = [] then []
    else if b = ['.', '.'] then []
    else c :: suffixRev.reverse

/-- `buildFinalFilename` of src/src/ai-filename.ts. -/
def buildFinalFilename (baseName currentFilePath : List Char) : List Char :=
  baseName ++ extname currentFilePath

/-! ### Auto-rename orchestrator (part_000, `autoRenameScratchpadFromDocument`) -/

/-- Base name of the document file: `path.basename(name, path.extname(name))`
applied to the basename of the path. -/
def currentBaseNameOf (p : List Char) : List Char :=
  let f := posixBasename p
  f.take (f.length - (extname f).length)

/-- Match of `^escaped(prefix)\d*$`: the configured prefix followed by
optional digits. -/
def matchesScratchPattern (pfx base : List Char) : Bool :=
  decide (base.take pfx.length = pfx) && (base.drop pfx.length).all isDigitChar

/-- Environment of one auto-rename attempt: the collaborator outcomes the
orchestrator consumes.  `isScratchpadDoc` is the path-membership gate
(directory resolves to the scratchpad root or below), `suggestion` the
provider chain result, `scratchpadDirOf` the filename-to-path resolver,
`destExists` the file-system probe of the destination. -/
structure AutoRenameEnv where
  isScratchpadDoc : Bool
  docText : List Char
  minCharsCfg : Nat
  currentFilePath : List Char
  prefixCfg : List Char
  suggestion : Option (List Char)
  scratchpadDirOf : List Char → List Char
  normalizePathFn : List Char → List Char
  destExists : Bool
  editorOpen : Bool
  editorDirty : Bool

/-- What one attempt did: whether the provider chain was invoked and whether
the file was renamed. -/
structure AutoRenameResult where
  providerCalled : Bool
  renameCalled : Bool
deriving DecidableEq

/-- `(Config.getExtensionConfiguration(...) as number) || 20`: a falsy
configured value (0) falls back to the default 20. -/
def effectiveMinChars (cfg : Nat) : Nat := if cfg = 0 then 20 else cfg

/-- The orchestrator gate sequence: membership gate, size gate (configured
minimum, 20 when the configured number is falsy), naming gate, then the
suggestion no-op checks, collision gate, and dirty-editor guard before the
rename commits. -/
def autoRenameScratchpadFromDocument (env : AutoRenameEnv) : AutoRenameResult :=
  if env.isScratchpadDoc = false then ⟨false, false⟩
  else if (trimJS env.docText).length < effectiveMinChars env.minCharsCfg then ⟨false, false⟩
  else if matchesScratchPattern env.prefixCfg (currentBaseNameOf env.currentFilePath) = false then
    ⟨false, false⟩
  else
    match env.suggestion with
    | none => ⟨true, false⟩
    | some s =>
      if s = currentBaseNameOf env.currentFilePath then ⟨true, false⟩
      else if env.normalizePathFn (env.scratchpadDirOf (buildFinalFilename s env.currentFilePath)) =
          env.normalizePathFn env.currentFilePath then ⟨true, false⟩
      else if env.destExists then ⟨true, false⟩
      else if env.editorOpen && env.editorDirty then ⟨true, false⟩
      else ⟨true, true⟩

/-! ### Provider chain and backend theorems -/

/-- C5: the suggestion provider chain obeys the configured ordering: the
`vscode` provider invokes only the local backend, the `openai` provider only
the remote backend, and `auto` tries the local backend first, invoking the
remote backend exactly when the local result is absent; a present local
result is returned and the remote backend is never invoked. -/
theorem suggestFilename_provider_ordering :
    ∀ (lr rr : Option (List Char)) (s : List Char),
      (suggestFilename RenameProvider.vscode lr rr).remoteCalled = false ∧
      (suggestFilename RenameProvider.vscode lr rr).localCalled = true ∧
      (suggestFilename RenameProvider.openai lr rr).localCalled = false ∧
      (suggestFilename RenameProvider.openai lr rr).remoteCalled = true ∧
      (suggestFilename RenameProvider.openai lr rr).result = rr ∧
      suggestFilename RenameProvider.auto (some s) rr = ⟨some s, true, false⟩ ∧
      suggestFilename RenameProvider.auto none rr = ⟨rr, true, true⟩ := by
  intro lr rr s
  cases lr <;> simp [suggestFilename]

/-- C6: neither backend lets a failure escape: the unavailable-capability,
no-model and thrown worlds of the local backend, and the missing-key,
rejected, malformed-JSON, missing-content and empty-content worlds of the
remote backend all produce an absent result; with no API key configured the
remote backend issues no network request at all. -/
theorem backends_never_throw :
    ∀ (key : List Char) (w : RemoteWorld),
      suggestWithVSCodeLM LMOutcome.apiUnavailable = none ∧
      suggestWithVSCodeLM LMOutcome.noModel = none ∧
      suggestWithVSCodeLM LMOutcome.threw = none ∧
      suggestWithOpenAI [] w = (none, false) ∧
      (suggestWithOpenAI key RemoteWorld.rejected).1 = none ∧
      (suggestWithOpenAI key RemoteWorld.resolvedBadJSON).1 = none ∧
      (suggestWithOpenAI key RemoteWorld.resolvedMissingContent).1 = none ∧
      (suggestWithOpenAI key (RemoteWorld.resolvedContent [])).1 = none := by
  intro key w
  refine ⟨rfl, rfl, rfl, by simp [suggestWithOpenAI], ?_, ?_, ?_, ?_⟩ <;>
    cases key <;> simp [suggestWithOpenAI]

/-- C7: the remote request timeout is the constant 10000 milliseconds, and a
request whose response would only arrive after the timeout is rejected and
degrades the backend to an absent result rather than hanging or throwing. -/
theorem postJSON_timeout_absent :
    timeoutMs = 10000 ∧
    ∀ (key : List Char) (d : Nat) (w : RemoteWorld),
      timeoutMs < d → (suggestWithOpenAI key (postJSONWithDelay d w)).1 = none := by
  refine ⟨rfl, ?_⟩
  intro key d w h
  have hw : postJSONWithDelay d w = RemoteWorld.rejected := by
    simp [postJSONWithDelay, h]
  rw [hw]
  cases key <;> simp [suggestWithOpenAI]

theorem postJSON_timeout_absent_witness :
    (suggestWithOpenAI "k".toList
      (postJSONWithDelay 10001 (RemoteWorld.resolvedContent "x".toList))).1 = none :=
  postJSON_timeout_absent.2 "k".toList 10001
    (RemoteWorld.resolvedContent "x".toList) (by decide)

/-- C10: `buildFinalFilename` appends the `path.extname` component of the
current path to the base name, and leaves the base name unchanged when the
current path has no extension. -/
theorem buildFinalFilename_spec :
    ∀ (b p : List Char),
      buildFinalFilename b p = b ++ extname p ∧
      (extname p = [] → buildFinalFilename b p = b) := by
  intro b p
  refine ⟨rfl, ?_⟩
  intro h
  simp [buildFinalFilename, h]

theorem buildFinalFilename_spec_witness :
    buildFinalFilename "notes".toList "/pads/scratch3".toList = "notes".toList :=
  (buildFinalFilename_spec "notes".toList "/pads/scratch3".toList).2 (by decide)

/-! ### Auto-rename orchestrator theorems -/

/-- A rename only happens when a suggestion arrived, differs from the
current base name, maps to a different normalized destination, and the
destination does not exist. -/
theorem autoRename_renameCalled_inv (env : AutoRenameEnv) :
    (autoRenameScratchpadFromDocument env).renameCalled = true →
    ∃ s, env.suggestion = some s ∧ s ≠ currentBaseNameOf env.currentFilePath ∧
      env.normalizePathFn (env.scratchpadDirOf (buildFinalFilename s env.currentFilePath)) ≠
        env.normalizePathFn env.currentFilePath ∧
      env.destExists = false := by
  intro h
  unfold autoRenameScratchpadFromDocument at h
  by_cases g1 : env.isScratchpadDoc = false
  · rw [if_pos g1] at h; exact absurd h (by simp)
  · rw [if_neg g1] at h
    by_cases g2 : (trimJS env.docText).length < effectiveMinChars env.minCharsCfg
    · rw [if_pos g2] at h; exact absurd h (by simp)
    · rw [if_neg g2] at h
      by_cases g3 :
          matchesScratchPattern env.prefixCfg (currentBaseNameOf env.currentFilePath) = false
      · rw [if_pos g3] at h; exact absurd h (by simp)
      · rw [if_neg g3] at h
        cases hs : env.suggestion with
        | none =>
          rw [hs] at h
          exact absurd h (by simp)
        | some s =>
          rw [hs] at h
          have h2 : (if s = currentBaseNameOf env.currentFilePath then
              (⟨true, false⟩ : AutoRenameResult)
            else if env.normalizePathFn
                (env.scratchpadDirOf (buildFinalFilename s env.currentFilePath)) =
                env.normalizePathFn env.currentFilePath then ⟨true, false⟩
            else if env.destExists then ⟨true, false⟩
            else if env.editorOpen && env.editorDirty then ⟨true, false⟩
            else ⟨true, true⟩).renameCalled = true := h
          by_cases g4 : s = currentBaseNameOf env.currentFilePath
          · rw [if_pos g4] at h2; exact absurd h2 (by simp)
          · rw [if_neg g4] at h2
            by_cases g5 : env.normalizePathFn
                (env.scratchpadDirOf (buildFinalFilename s env.currentFilePath)) =
                env.normalizePathFn env.currentFilePath
            · rw [if_pos g5] at h2; exact absurd h2 (by simp)
            · rw [if_neg g5] at h2
              by_cases g6 : env.destExists = true
              · rw [if_pos g6] at h2; exact absurd h2 (by simp)
              · exact ⟨s, rfl, g4, g5, by simpa using g6⟩

/-- C8: failing any early gate — not a scratchpad directory, trimmed text
below the configured minimum (20 when the configured value is falsy), or a
base filename outside the prefix-plus-digits pattern — terminates the
attempt without invoking the provider chain and without a rename. -/
theorem autoRename_early_gates_noop :
    ∀ env : AutoRenameEnv,
      (env.isScratchpadDoc = false ∨
       (trimJS env.docText).length < effectiveMinChars env.minCharsCfg ∨
       matchesScratchPattern env.prefixCfg (currentBaseNameOf env.currentFilePath) = false) →
      autoRenameScratchpadFromDocument env = ⟨false, false⟩ := by
  intro env h
  unfold autoRenameScratchpadFromDocument
  by_cases g1 : env.isScratchpadDoc = false
  · rw [if_pos g1]
  · rw [if_neg g1]
    by_cases g2 : (trimJS env.docText).length < effectiveMinChars env.minCharsCfg
    · rw [if_pos g2]
    · rw [if_neg g2]
      rcases h with h | h | h
      · exact absurd h g1
      · exact absurd h g2
      · rw [if_pos h]

theorem autoRename_early_gates_noop_witness :
    autoRenameScratchpadFromDocument
      ⟨true, "short".toList, 0, "/pads/scratch1.md".toList, "scratch".toList,
        none, id, id, false, false, false⟩ = ⟨false, false⟩ :=
  autoRename_early_gates_noop _ (Or.inr (Or.inl (by decide)))

/-- C9: an attempt that reaches the suggestion step makes no rename call
when the suggestion is absent, equals the current base name, normalizes to
the current path, or the destination already exists; the file keeps its
current name and an existing destination is never overwritten. -/
theorem autoRename_noop_checks :
    ∀ env : AutoRenameEnv,
      (env.suggestion = none →
        (autoRenameScratchpadFromDocument env).renameCalled = false) ∧
      (∀ s, env.suggestion = some s →
        (s = currentBaseNameOf env.currentFilePath ∨
         env.normalizePathFn (env.scratchpadDirOf (buildFinalFilename s env.currentFilePath)) =
           env.normalizePathFn env.currentFilePath ∨
         env.destExists = true) →
        (autoRenameScratchpadFromDocument env).renameCalled = false) := by
  intro env
  constructor
  · intro hnone
    by_contra hc
    rw [Bool.not_eq_false] at hc
    obtain ⟨s, hs, -⟩ := autoRename_renameCalled_inv env hc
    rw [hnone] at hs
    cases hs
  · intro s hs hdisj
    by_contra hc
    rw [Bool.not_eq_false] at hc
    obtain ⟨s', hs', hne, hpath, hde⟩ := autoRename_renameCalled_inv env hc
    rw [hs] at hs'
    injection hs' with hss
    subst hss
    rcases hdisj with h | h | h
    · exact hne h
    · exact hpath h
    · rw [hde] at h; cases h

theorem autoRename_noop_checks_witness :
    (autoRenameScratchpadFromDocument
      ⟨true, "this is a long enough scratchpad body".toList, 0,
        "/pads/scratch1.md".toList, "scratch".toList,
        some "scratch1".toList, id, id, false, false, false⟩).renameCalled = false :=
  (autoRename_noop_checks _).2 "scratch1".toList rfl (Or.inl (by decide))

/-! ### Allocator theorems -/

theorem mem_usedNumbers {n : Nat} {base : List Char} {files : List (List Char)} :
    n ∈ usedNumbers base files ↔ ∃ f ∈ files, parseNumberedSuffix base f = some n := by
  simp [usedNumbers, List.mem_dedup, List.mem_filterMap]

theorem mem_le_maxUsed {n : Nat} : ∀ {s : List Nat}, n ∈ s → n ≤ maxUsed s := by
  intro s
  induction s with
  | nil => intro h; cases h
  | cons a t ih =>
    intro h
    rcases List.mem_cons.mp h with rfl | h
    · exact le_max_left _ _
    · exact le_trans (ih h) (le_max_right _ _)

/-- The probe loop finds the least value, from `c` upward, that is not in
`s`, provided the fuel reaches past some gap. -/
theorem findFrom_spec (s : List Nat) :
    ∀ fuel c, (∃ k, k < fuel ∧ (c + k) ∉ s) →
      findFrom s fuel c ∉ s ∧ c ≤ findFrom s fuel c ∧
        ∀ j, c ≤ j → j < findFrom s fuel c → j ∈ s := by
  intro fuel
  induction fuel with
  | zero =>
    intro c ⟨k, hk, _⟩
    exact absurd hk (Nat.not_lt_zero k)
  | succ fuel ih =>
    intro c ⟨k, hk, hgap⟩
    by_cases hc : c ∈ s
    · have hk0 : k ≠ 0 := by
        rintro rfl
        exact hgap hc
      have h' : ∃ k2, k2 < fuel ∧ (c + 1 + k2) ∉ s :=
        ⟨k - 1, by omega, by
          have : c + 1 + (k - 1) = c + k := by omega
          rw [this]; exact hgap⟩
      obtain ⟨r1, r2, r3⟩ := ih (c + 1) h'
      rw [findFrom, if_pos hc]
      refine ⟨r1, by omega, ?_⟩
      intro j hj1 hj2
      rcases Nat.eq_or_lt_of_le hj1 with rfl | hj1'
      · exact hc
      · exact r3 j hj1' hj2
    · rw [findFrom, if_neg hc]
      exact ⟨hc, le_refl c, fun j h1 h2 => absurd (lt_of_le_of_lt h1 h2) (lt_irrefl c)⟩

/-- `findNextAvailableNumber` returns the least positive number that is not
a used numeric suffix. -/
theorem findNextAvailableNumber_spec (base : List Char) (files : List (List Char)) :
    1 ≤ findNextAvailableNumber base files ∧
    findNextAvailableNumber base files ∉ usedNumbers base files ∧
    ∀ m, 1 ≤ m → m < findNextAvailableNumber base files → m ∈ usedNumbers base files := by
  unfold findNextAvailableNumber
  by_cases h : usedNumbers base files = []
  · rw [if_pos h]
    exact ⟨le_refl 1, by simp [h], fun m h1 h2 => by omega⟩
  · rw [if_neg h]
    have hgap : ∃ k, k < maxUsed (usedNumbers base files) + 1 ∧
        (1 + k) ∉ usedNumbers base files := by
      refine ⟨maxUsed (usedNumbers base files), Nat.lt_succ_self _, fun hmem => ?_⟩
      have := mem_le_maxUsed hmem
      omega
    obtain ⟨r1, r2, r3⟩ := findFrom_spec (usedNumbers base files)
      (maxUsed (usedNumbers base files) + 1) 1 hgap
    exact ⟨r2, r1, r3⟩

/-- C1: the allocated number is the lowest positive integer that is not the
parsed numeric suffix of any existing file matching base-digits-dot-extension,
and the allocator appends exactly that number whatever extension is
requested. -/
theorem findNextAvailableNumber_least_gap :
    ∀ (base : List Char) (files : List (List Char)),
      1 ≤ findNextAvailableNumber base files ∧
      ¬(∃ f ∈ files,
        parseNumberedSuffix base f = some (findNextAvailableNumber base files)) ∧
      (∀ m, 1 ≤ m → m < findNextAvailableNumber base files →
        ∃ f ∈ files, parseNumberedSuffix base f = some m) ∧
      (∀ ext : List Char, baseFilenameExists base files = true →
        createScratchpadFilename base ext files =
          base ++ natChars (findNextAvailableNumber base files) ++ ext) := by
  intro base files
  obtain ⟨h1, h2, h3⟩ := findNextAvailableNumber_spec base files
  refine ⟨h1, fun hx => h2 (mem_usedNumbers.mpr hx), ?_, ?_⟩
  · intro m hm1 hm2
    exact mem_usedNumbers.mp (h3 m hm1 hm2)
  · intro ext hex
    unfold createScratchpadFilename
    rw [if_pos hex]

theorem findNextAvailableNumber_least_gap_witness :
    findNextAvailableNumber "s".toList
        ["s.js".toList, "s1.ts".toList, "s3.sql".toList, "s4.js".toList] = 2 ∧
    (∃ f ∈ ["s.js".toList, "s1.ts".toList, "s3.sql".toList, "s4.js".toList],
      parseNumberedSuffix "s".toList f = some 1) ∧
    createScratchpadFilename "s".toList ".ts".toList
        ["s.js".toList, "s1.ts".toList, "s3.sql".toList, "s4.js".toList] = "s2.ts".toList :=
  ⟨by decide,
   (findNextAvailableNumber_least_gap "s".toList
     ["s.js".toList, "s1.ts".toList, "s3.sql".toList, "s4.js".toList]).2.2.1
       1 (le_refl 1) (by decide),
   Eq.trans
     ((findNextAvailableNumber_least_gap "s".toList
       ["s.js".toList, "s1.ts".toList, "s3.sql".toList, "s4.js".toList]).2.2.2
         ".ts".toList (by decide))
     (by decide)⟩

/-- C4: an unclaimed base yields the unsuffixed name; a claimed base with no
numbered sibling yields suffix 1. -/
theorem createScratchpadFilename_spec :
    ∀ (base ext : List Char) (files : List (List Char)),
      (baseFilenameExists base files = false →
        createScratchpadFilename base ext files = base ++ ext) ∧
      (baseFilenameExists base files = true →
        (∀ f ∈ files, parseNumberedSuffix base f = none) →
        createScratchpadFilename base ext files = base ++ natChars 1 ++ ext) := by
  intro base ext files
  constructor
  · intro h
    simp [createScratchpadFilename, h]
  · intro hex hnone
    have hused : usedNumbers base files = [] := by
      unfold usedNumbers
      rw [List.dedup_eq_nil]
      exact List.filterMap_eq_nil_iff.mpr hnone
    have hone : findNextAvailableNumber base files = 1 := by
      unfold findNextAvailableNumber
      rw [if_pos hused]
    unfold createScratchpadFilename
    rw [if_pos hex, hone]

theorem createScratchpadFilename_spec_witness :
    createScratchpadFilename "scratch".toList ".md".toList [] = "scratch.md".toList ∧
    createScratchpadFilename "scratch".toList ".py".toList ["scratch.md".toList] =
      "scratch1.py".toList :=
  ⟨Eq.trans
     ((createScratchpadFilename_spec "scratch".toList ".md".toList []).1 (by decide))
     (by decide),
   Eq.trans
     ((createScratchpadFilename_spec "scratch".toList ".py".toList
        ["scratch.md".toList]).2 (by decide) (by decide))
     (by decide)⟩

/-! ### Character class lemmas -/

theorem stemChar_cases {c : Char} (h : isStemChar c = true) :
    (97 ≤ c.toNat ∧ c.toNat ≤ 122) ∨ (48 ≤ c.toNat ∧ c.toNat ≤ 57) ∨ c = '-' := by
  simp only [isStemChar, isLowerChar, isDigitChar, Bool.or_eq_true, Bool.and_eq_true,
    decide_eq_true_eq] at h
  tauto

theorem stemChar_not_space {c : Char} (h : isStemChar c = true) : isJSSpace c = false := by
  rcases stemChar_cases h with ⟨h1, h2⟩ | ⟨h1, h2⟩ | rfl
  · cases hq : isJSSpace c
    · rfl
    · exfalso
      simp only [isJSSpace, Bool.or_eq_true, Bool.and_eq_true, decide_eq_true_eq] at hq
      omega
  · cases hq : isJSSpace c
    · rfl
    · exfalso
      simp only [isJSSpace, Bool.or_eq_true, Bool.and_eq_true, decide_eq_true_eq] at hq
      omega
  · decide

theorem stemChar_not_spaceUnderscore {c : Char} (h : isStemChar c = true) :
    isSpaceUnderscore c = false := by
  rcases stemChar_cases h with ⟨h1, h2⟩ | ⟨h1, h2⟩ | rfl
  · cases hq : isSpaceUnderscore c
    · rfl
    · exfalso
      simp only [isSpaceUnderscore, isJSSpace, Bool.or_eq_true, Bool.and_eq_true,
        decide_eq_true_eq] at hq
      omega
  · cases hq : isSpaceUnderscore c
    · rfl
    · exfalso
      simp only [isSpaceUnderscore, isJSSpace, Bool.or_eq_true, Bool.and_eq_true,
        decide_eq_true_eq] at hq
      omega
  · decide

theorem stemChar_kept {c : Char} (h : isStemChar c = true) : isKeptChar c = true := by
  simp only [isStemChar, Bool.or_eq_true] at h
  simp only [isKeptChar, Bool.or_eq_true]
  tauto

theorem stemChar_toLower {c : Char} (h : isStemChar c = true) : toLowerChar c = c := by
  have hu : isUpperChar c = false := by
    rcases stemChar_cases h with ⟨h1, h2⟩ | ⟨h1, h2⟩ | rfl
    · cases hq : isUpperChar c
      · rfl
      · exfalso
        simp only [isUpperChar, Bool.and_eq_true, decide_eq_true_eq] at hq
        omega
    · cases hq : isUpperChar c
      · rfl
      · exfalso
        simp only [isUpperChar, Bool.and_eq_true, decide_eq_true_eq] at hq
        omega
    · decide
  simp [toLowerChar, hu]

theorem stemChar_not_quote {c : Char} (h : isStemChar c = true) :
    (!(decide (c.toNat = 96) || decide (c.toNat = 34) || decide (c.toNat = 39))) = true := by
  rcases stemChar_cases h with ⟨h1, h2⟩ | ⟨h1, h2⟩ | rfl
  · simp only [Bool.not_eq_true', Bool.or_eq_false_iff, decide_eq_false_iff_not]
    omega
  · simp only [Bool.not_eq_true', Bool.or_eq_false_iff, decide_eq_false_iff_not]
    omega
  · decide

theorem stemChar_ne_newline {c : Char} (h : isStemChar c = true) :
    (!decide (c = '\n')) = true := by
  cases hq : decide (c = '\n')
  · rfl
  · have := of_decide_eq_true hq
    subst this
    exact absurd h (by decide)

theorem stemChar_ne_dot {c : Char} (h : isStemChar c = true) : ¬(c = '.') := by
  intro hc
  subst hc
  exact absurd h (by decide)

theorem stemChar_ne_hyphen_of {c : Char} (h : isHyphen c = false) : ¬(c = '-') :=
  of_decide_eq_false h

/-! ### Generic list lemmas for the sanitizer stages -/

theorem dropWhile_all {p : Char → Bool} {l : List Char} (h : ∀ c ∈ l, p c = false) :
    l.dropWhile p = l := by
  cases l with
  | nil => rfl
  | cons a t =>
    have := h a (List.mem_cons_self a t)
    simp [List.dropWhile_cons, this]

theorem map_id_all {f : Char → Char} {l : List Char} (h : ∀ c ∈ l, f c = c) :
    l.map f = l := by
  induction l with
  | nil => rfl
  | cons a t ih =>
    rw [List.map_cons, h a (List.mem_cons_self a t),
      ih fun c hc => h c (List.mem_cons_of_mem a hc)]

/-! ### `collapseRuns` lemmas -/

theorem mem_collapseRuns {p : Char → Bool} {r : Char} :
    ∀ {l c}, c ∈ collapseRuns p r l → c = r ∨ (c ∈ l ∧ p c = false) := by
  intro l
  induction l with
  | nil => intro c h; cases h
  | cons a t ih =>
    cases t with
    | nil =>
      intro c h
      by_cases hp : p a = true
      · simp only [collapseRuns, hp, if_true] at h
        simp only [List.mem_singleton] at h
        exact Or.inl h
      · rw [Bool.not_eq_true] at hp
        simp only [collapseRuns, hp, Bool.false_eq_true, if_false] at h
        simp only [List.mem_singleton] at h
        exact Or.inr ⟨by simp [h], h ▸ hp⟩
    | cons b t2 =>
      intro c h
      by_cases hab : (p a && p b) = true
      · simp only [collapseRuns, hab, if_true] at h
        rcases ih h with h1 | ⟨h2, h3⟩
        · exact Or.inl h1
        · exact Or.inr ⟨List.mem_cons_of_mem a h2, h3⟩
      · rw [Bool.not_eq_true] at hab
        simp only [collapseRuns, hab, Bool.false_eq_true, if_false] at h
        rcases List.mem_cons.mp h with rfl | h2
        · by_cases hp : p a = true
          · rw [if_pos hp]
            exact Or.inl rfl
          · rw [Bool.not_eq_true] at hp
            have hceq : (if p a = true then r else a) = a := by simp [hp]
            rw [hceq]
            exact Or.inr ⟨List.mem_cons_self a _, hp⟩
        · rcases ih h2 with h1 | ⟨h3, h4⟩
          · exact Or.inl h1
          · exact Or.inr ⟨List.mem_cons_of_mem a h3, h4⟩

theorem head?_collapseRuns {p : Char → Bool} {r a : Char} {l : List Char}
    (ha : p a = false) : (collapseRuns p r (a :: l)).head? = some a := by
  cases l with
  | nil => simp [collapseRuns, ha]
  | cons b t => simp [collapseRuns, ha]

theorem chain_collapseHyphens : ∀ l, List.Chain' NoHH (collapseRuns isHyphen '-' l) := by
  intro l
  induction l with
  | nil => exact List.chain'_nil
  | cons a t ih =>
    cases t with
    | nil =>
      by_cases hp : isHyphen a = true <;> simp [collapseRuns, hp]
    | cons b t2 =>
      by_cases hab : (isHyphen a && isHyphen b) = true
      · simp only [collapseRuns, hab, if_true]
        exact ih
      · rw [Bool.not_eq_true] at hab
        simp only [collapseRuns, hab, Bool.false_eq_true, if_false]
        by_cases ha : isHyphen a = true
        · have hb : isHyphen b = false := by
            cases hq : isHyphen b
            · rfl
            · rw [ha, hq] at hab; cases hab
          rw [if_pos ha]
          apply List.chain'_cons'.mpr
          constructor
          · intro y hy
            rw [head?_collapseRuns hb, Option.mem_def, Option.some_inj] at hy
            subst hy
            exact fun hcontr => stemChar_ne_hyphen_of hb hcontr.2
          · exact ih
        · rw [Bool.not_eq_true] at ha
          rw [if_neg (by simp [ha])]
          apply List.chain'_cons'.mpr
          refine ⟨fun y _ => ?_, ih⟩
          exact fun hcontr => stemChar_ne_hyphen_of ha hcontr.1

theorem collapseRuns_id_of_not {p : Char → Bool} {r : Char} :
    ∀ {l}, (∀ c ∈ l, p c = false) → collapseRuns p r l = l := by
  intro l
  induction l with
  | nil => intro _; rfl
  | cons a t ih =>
    intro h
    have ha := h a (List.mem_cons_self a t)
    cases t with
    | nil => simp [collapseRuns, ha]
    | cons b t2 =>
      have hb := h b (List.mem_cons_of_mem a (List.mem_cons_self b t2))
      simp only [collapseRuns, ha, Bool.false_and, Bool.false_eq_true, if_false]
      rw [ih fun c hc => h c (List.mem_cons_of_mem a hc)]

theorem collapseHyphens_id : ∀ {l}, List.Chain' NoHH l → collapseRuns isHyphen '-' l = l := by
  intro l
  induction l with
  | nil => intro _; rfl
  | cons a t ih =>
    intro h
    cases t with
    | nil =>
      by_cases hp : isHyphen a = true
      · have : a = '-' := of_decide_eq_true hp
        simp [collapseRuns, hp, this]
      · rw [Bool.not_eq_true] at hp
        simp [collapseRuns, hp]
    | cons b t2 =>
      have hR : NoHH a b := (List.chain'_cons.mp h).1
      have hab : (isHyphen a && isHyphen b) = false := by
        by_cases ha : a = '-'
        · by_cases hb : b = '-'
          · exact absurd ⟨ha, hb⟩ hR
          · simp [isHyphen, hb]
        · simp [isHyphen, ha]
      simp only [collapseRuns, hab, Bool.false_eq_true, if_false]
      have hhead : (if isHyphen a = true then '-' else a) = a := by
        by_cases ha : isHyphen a = true
        · rw [if_pos ha, of_decide_eq_true ha]
        · rw [if_neg ha]
      rw [hhead, ih (List.chain'_cons.mp h).2]

/-! ### Edge-hyphen stripping lemmas -/

theorem chainNoHH_reverse {l : List Char} :
    List.Chain' NoHH l.reverse ↔ List.Chain' NoHH l := by
  rw [List.chain'_reverse]
  constructor
  · intro h
    exact h.imp fun a b hab => fun hc => hab ⟨hc.2, hc.1⟩
  · intro h
    exact h.imp fun a b hab => fun hc => hab ⟨hc.2, hc.1⟩

theorem stripLeadHyphen_eq_or (l : List Char) :
    stripLeadHyphen l = l ∨ stripLeadHyphen l = l.tail := by
  cases l with
  | nil => exact Or.inl rfl
  | cons a t =>
    by_cases h : a = '-'
    · refine Or.inr ?_
      show (if a = '-' then t else a :: t) = t
      rw [if_pos h]
    · refine Or.inl ?_
      show (if a = '-' then t else a :: t) = a :: t
      rw [if_neg h]

theorem mem_stripLeadHyphen {c : Char} {l : List Char} (h : c ∈ stripLeadHyphen l) :
    c ∈ l := by
  rcases stripLeadHyphen_eq_or l with he | he <;> rw [he] at h
  · exact h
  · exact List.mem_of_mem_tail h

theorem chain_stripLeadHyphen {l : List Char} (h : List.Chain' NoHH l) :
    List.Chain' NoHH (stripLeadHyphen l) := by
  rcases stripLeadHyphen_eq_or l with he | he <;> rw [he]
  · exact h
  · exact h.tail

theorem length_stripLeadHyphen (l : List Char) :
    (stripLeadHyphen l).length ≤ l.length := by
  rcases stripLeadHyphen_eq_or l with he | he <;> rw [he]
  rw [List.length_tail]
  omega

theorem head?_stripLeadHyphen {l : List Char} (h : List.Chain' NoHH l) :
    (stripLeadHyphen l).head? ≠ some '-' := by
  cases l with
  | nil => simp [stripLeadHyphen]
  | cons a t =>
    by_cases ha : a = '-'
    · simp only [stripLeadHyphen, if_pos ha]
      cases t with
      | nil => simp
      | cons b t2 =>
        have hR : NoHH a b := (List.chain'_cons.mp h).1
        have hb : b ≠ '-' := fun hb => hR ⟨ha, hb⟩
        simpa using hb
    · simp only [stripLeadHyphen, if_neg ha]
      simpa using ha

theorem stripTrailHyphen_eq_or (l : List Char) :
    stripTrailHyphen l = l ∨ stripTrailHyphen l = l.dropLast := by
  unfold stripTrailHyphen
  rcases stripLeadHyphen_eq_or l.reverse with he | he <;> rw [he]
  · rw [List.reverse_reverse]
    exact Or.inl rfl
  · rw [List.tail_reverse, List.reverse_reverse]
    exact Or.inr rfl

theorem mem_stripTrailHyphen {c : Char} {l : List Char} (h : c ∈ stripTrailHyphen l) :
    c ∈ l := by
  unfold stripTrailHyphen at h
  rw [List.mem_reverse] at h
  have h2 := mem_stripLeadHyphen h
  rwa [List.mem_reverse] at h2

theorem chain_stripTrailHyphen {l : List Char} (h : List.Chain' NoHH l) :
    List.Chain' NoHH (stripTrailHyphen l) := by
  unfold stripTrailHyphen
  rw [chainNoHH_reverse]
  exact chain_stripLeadHyphen (chainNoHH_reverse.mpr h)

theorem getLast?_stripTrailHyphen {l : List Char} (h : List.Chain' NoHH l) :
    (stripTrailHyphen l).getLast? ≠ some '-' := by
  unfold stripTrailHyphen
  rw [← List.head?_reverse, List.reverse_reverse]
  exact head?_stripLeadHyphen (chainNoHH_reverse.mpr h)

theorem head?_stripTrailHyphen {c : Char} {l : List Char}
    (h : (stripTrailHyphen l).head? = some c) : l.head? = some c := by
  rcases stripTrailHyphen_eq_or l with he | he <;> rw [he] at h
  · exact h
  · cases l with
    | nil => simp at h
    | cons a t =>
      cases t with
      | nil => simp [List.dropLast] at h
      | cons b t2 =>
        rw [show (a :: b :: t2).dropLast = a :: (b :: t2).dropLast from rfl] at h
        simp only [List.head?_cons, Option.some_inj] at h ⊢
        exact h

theorem length_stripTrailHyphen (l : List Char) :
    (stripTrailHyphen l).length ≤ l.length := by
  rcases stripTrailHyphen_eq_or l with he | he <;> rw [he]
  rw [List.length_dropLast]
  omega

theorem stripEdgeHyphens_spec {l : List Char} (hch : List.Chain' NoHH l) :
    List.Chain' NoHH (stripEdgeHyphens l) ∧
    (stripEdgeHyphens l).head? ≠ some '-' ∧
    (stripEdgeHyphens l).getLast? ≠ some '-' ∧
    (stripEdgeHyphens l).length ≤ l.length ∧
    (∀ c ∈ stripEdgeHyphens l, c ∈ l) := by
  unfold stripEdgeHyphens
  have h1 := chain_stripLeadHyphen hch
  refine ⟨chain_stripTrailHyphen h1, ?_, getLast?_stripTrailHyphen h1, ?_, ?_⟩
  · intro hc
    exact head?_stripLeadHyphen hch (head?_stripTrailHyphen hc)
  · exact le_trans (length_stripTrailHyphen _) (length_stripLeadHyphen _)
  · intro c hc
    exact mem_stripLeadHyphen (mem_stripTrailHyphen hc)

theorem stripLeadHyphen_id {l : List Char} (h : l.head? ≠ some '-') :
    stripLeadHyphen l = l := by
  cases l with
  | nil => rfl
  | cons a t =>
    have ha : ¬(a = '-') := by simpa using h
    simp [stripLeadHyphen, ha]

theorem stripTrailHyphen_id {l : List Char} (h : l.getLast? ≠ some '-') :
    stripTrailHyphen l = l := by
  unfold stripTrailHyphen
  rw [stripLeadHyphen_id (by rw [List.head?_reverse]; exact h), List.reverse_reverse]

theorem stripEdgeHyphens_id {l : List Char} (h1 : l.head? ≠ some '-')
    (h2 : l.getLast? ≠ some '-') : stripEdgeHyphens l = l := by
  unfold stripEdgeHyphens
  rw [stripLeadHyphen_id h1, stripTrailHyphen_id h2]

/-! ### Sanitizer shape -/

theorem mem_replaceDisallowed {c : Char} {l : List Char} (h : c ∈ replaceDisallowed l) :
    isStemChar c = true ∨ isSpaceUnderscore c = true := by
  unfold replaceDisallowed at h
  obtain ⟨a, ha, heq⟩ := List.mem_map.mp h
  by_cases hk : isKeptChar a = true
  · rw [if_pos hk] at heq
    subst heq
    simp only [isKeptChar, Bool.or_eq_true] at hk
    simp only [isStemChar, isSpaceUnderscore, Bool.or_eq_true]
    tauto
  · rw [if_neg hk] at heq
    subst heq
    right
    decide

set_option maxHeartbeats 1000000 in
/-- Every character of the cleaned value is a stem character, it never has a
hyphen at either end, never two adjacent hyphens, and its length is at most
60. -/
theorem sanitizeCore_facts (x : List Char) :
    (∀ c ∈ sanitizeCore x, isStemChar c = true) ∧
    List.Chain' NoHH (sanitizeCore x) ∧
    (sanitizeCore x).head? ≠ some '-' ∧
    (sanitizeCore x).getLast? ≠ some '-' ∧
    (sanitizeCore x).length ≤ 60 := by
  unfold sanitizeCore
  set w := replaceDisallowed
    (stripTrailingExtension (removeQuotes ((trimJS (firstLine x)).map toLowerChar))) with hw
  set y7 := collapseRuns isSpaceUnderscore '-' w with hy7
  set y8 := collapseRuns isHyphen '-' y7 with hy8
  have hmem7 : ∀ c ∈ y7, isStemChar c = true := by
    intro c hc
    rcases mem_collapseRuns hc with rfl | ⟨hcw, hcp⟩
    · decide
    · rcases mem_replaceDisallowed hcw with h | h
      · exact h
      · rw [hcp] at h
        cases h
  have hmem8 : ∀ c ∈ y8, isStemChar c = true := by
    intro c hc
    rcases mem_collapseRuns hc with rfl | ⟨hcw, _⟩
    · decide
    · exact hmem7 c hcw
  have hch8 : List.Chain' NoHH y8 := chain_collapseHyphens y7
  obtain ⟨hch9, hhead9, hlast9, hlen9, hmem9⟩ := stripEdgeHyphens_spec hch8
  have hch10 : List.Chain' NoHH ((stripEdgeHyphens y8).take 60) := hch9.take 60
  obtain ⟨hch11, hhead11, hlast11, hlen11, hmem11⟩ := stripEdgeHyphens_spec hch10
  refine ⟨?_, hch11, hhead11, hlast11, ?_⟩
  · intro c hc
    have hc10 := hmem11 c hc
    have hc9 := List.take_subset 60 _ hc10
    exact hmem8 c (hmem9 _ hc9)
  · refine le_trans hlen11 ?_
    rw [List.length_take]
    exact min_le_left _ _

set_option maxHeartbeats 1000000 in
/-- C2: the sanitizer either returns absent or a non-empty stem of at most
60 characters matching the dash-delimited lowercase alphanumeric pattern,
with no hyphen at either end even after the truncation. -/
theorem sanitizeFilename_shape :
    ∀ x : List Char, sanitizeFilename x = none ∨
      ∃ s, sanitizeFilename x = some s ∧ GoodStem s ∧ s.length ≤ 60 := by
  intro x
  unfold sanitizeFilename
  by_cases h : sanitizeCore x = []
  · rw [if_pos h]
    exact Or.inl rfl
  · rw [if_neg h]
    obtain ⟨h1, h2, h3, h4, h5⟩ := sanitizeCore_facts x
    exact Or.inr ⟨sanitizeCore x, rfl, ⟨h, h1, h3, h4, h2⟩, h5⟩

/-! ### Sanitizer idempotence -/

set_option maxHeartbeats 1000000 in
theorem sanitize_some_shape {x s : List Char} (h : sanitizeFilename x = some s) :
    GoodStem s ∧ s.length ≤ 60 := by
  unfold sanitizeFilename at h
  by_cases hc : sanitizeCore x = []
  · rw [if_pos hc] at h
    cases h
  · rw [if_neg hc] at h
    injection h with h'
    subst h'
    obtain ⟨h1, h2, h3, h4, h5⟩ := sanitizeCore_facts x
    exact ⟨⟨hc, h1, h3, h4, h2⟩, h5⟩

/-- Every sanitizer stage is the identity on a valid stem of length at most
60, so the cleaned value of such a stem is the stem itself. -/
theorem sanitizeCore_fixed {s : List Char} (hg : GoodStem s) (hlen : s.length ≤ 60) :
    sanitizeCore s = s := by
  obtain ⟨hne, hmem, hhead, hlast, hchain⟩ := hg
  have t1 : firstLine s = s :=
    List.takeWhile_eq_self_iff.mpr fun c hc => stemChar_ne_newline (hmem c hc)
  have t2 : trimJS s = s := by
    unfold trimJS
    rw [dropWhile_all fun c hc => stemChar_not_space (hmem c hc)]
    rw [dropWhile_all fun c hc => stemChar_not_space (hmem c (List.mem_reverse.mp hc))]
    exact List.reverse_reverse s
  have t3 : s.map toLowerChar = s :=
    map_id_all fun c hc => stemChar_toLower (hmem c hc)
  have t4 : removeQuotes s = s :=
    List.filter_eq_self.mpr fun c hc => stemChar_not_quote (hmem c hc)
  have t5 : stripTrailingExtension s = s := by
    unfold stripTrailingExtension
    by_cases hrun : s.reverse.takeWhile isAlnumCI = []
    · rw [if_pos hrun]
    · rw [if_neg hrun]
      split
      · rename_i rest heq
        exfalso
        have hdot : '.' ∈ s.reverse.drop (s.reverse.takeWhile isAlnumCI).length :=
          heq ▸ List.mem_cons_self '.' rest
        have hdot2 : '.' ∈ s := List.mem_reverse.mp (List.drop_subset _ _ hdot)
        exact stemChar_ne_dot (hmem '.' hdot2) rfl
      · rfl
  have t6 : replaceDisallowed s = s :=
    map_id_all fun c hc => if_pos (stemChar_kept (hmem c hc))
  have t7 : collapseRuns isSpaceUnderscore '-' s = s :=
    collapseRuns_id_of_not fun c hc => stemChar_not_spaceUnderscore (hmem c hc)
  have t8 : collapseRuns isHyphen '-' s = s := collapseHyphens_id hchain
  have t9 : stripEdgeHyphens s = s := stripEdgeHyphens_id hhead hlast
  have t10 : s.take 60 = s := List.take_of_length_le hlen
  unfold sanitizeCore
  rw [t1, t2, t3, t4, t5, t6, t7, t8, t9, t10, t9]

set_option maxHeartbeats 1000000 in
/-- C3: the sanitizer is idempotent on its successes. -/
theorem sanitizeFilename_idempotent :
    ∀ x s : List Char, sanitizeFilename x = some s → sanitizeFilename s = some s := by
  intro x s h
  obtain ⟨hg, hlen⟩ := sanitize_some_shape h
  have hcore := sanitizeCore_fixed hg hlen
  unfold sanitizeFilename
  rw [hcore, if_neg hg.1]

theorem sanitizeFilename_idempotent_witness :
    sanitizeFilename "my-file".toList = some "my-file".toList :=
  sanitizeFilename_idempotent "My File.TXT".toList "my-file".toList (by decide)

end Scratchpads
